import Mathlib

/-!
Verification of the activity hierarchy engine of the deal-deck backend
(source file `activity_helpers.py`).

A snapshot is a flat list of activity records; each record carries an `id`
string, an optional `parent_activity_id` reference and an opaque payload
(modelled here by a single `title` field).  The six engine operations are
translated function by function from the Python source.  The two
recursive operations (`get_activity_tree`, `get_activity_descendants`)
and the ancestor while-loop can diverge on cyclic input, so they are
embedded as fuel-indexed functions returning `Option`: `none` means the
fuel was exhausted, `some r` means the Python function returns `r` (fuel
only ever bounds the recursion depth, so results are fuel-monotone).
Canonical (fuel `length + 1`) total wrappers are provided; the
termination theorems show that this fuel suffices on acyclic input.
-/

namespace ActivityHierarchy

/-- An activity record: `id`, optional `parent_activity_id`, and an opaque
payload field standing for all traversal-irrelevant data. -/
structure Activity where
  id : String
  parent_activity_id : Option String
  title : String
deriving DecidableEq, Repr

/-- Python truthiness of the `parent_activity_id` value: `None` and the
empty string are falsy, every other string is truthy. -/
def truthy : Option String → Bool
  | none => false
  | some s => !(s == "")

/-- `next((a for a in activities if a["id"] == x), None)` — first record
with the given id. -/
def findById (activities : List Activity) (x : String) : Option Activity :=
  activities.find? fun a => a.id == x

/-- One level of `get_activity_tree`'s output: the Python code attaches a
`children` key only when the recursive call returned a non-empty list, so
a node either has no `children` field (`leaf`) or carries one (`node`). -/
inductive TreeNode where
  | leaf : Activity → TreeNode
  | node : Activity → List TreeNode → TreeNode

/-- The activity stored in a tree node (the shallow copy the code appends). -/
def TreeNode.act : TreeNode → Activity
  | .leaf a => a
  | .node a _ => a

/-- Whether the node carries a `children` field. -/
def TreeNode.hasChildrenField : TreeNode → Bool
  | .leaf _ => false
  | .node _ _ => true

/-- The `children` list of a node (empty for a `leaf`). -/
def TreeNode.children : TreeNode → List TreeNode
  | .leaf _ => []
  | .node _ cs => cs

/-- The body of `get_activity_tree`'s `for` loop over the records matching
the current `parent_id`, parametrised by the recursive call `f`. -/
def forestStep (f : String → Option (List TreeNode)) : List Activity → Option (List TreeNode)
  | [] => some []
  | a :: rest =>
    match f a.id with
    | none => none
    | some cs =>
      match forestStep f rest with
      | none => none
      | some ts => some ((if cs.isEmpty then TreeNode.leaf a else TreeNode.node a cs) :: ts)

/-- Fuel-indexed `get_activity_tree(activities, parent_id)`: selects the
records whose `parent_activity_id` equals `parent_id` (Python `==`, so
`None` matches only `None`) and recursively builds their subtrees. -/
def get_activity_treeF (F : List Activity) : Nat → Option String → Option (List TreeNode)
  | 0, _ => none
  | fuel + 1, p =>
    forestStep (fun x => get_activity_treeF F fuel (some x))
      (F.filter fun a => a.parent_activity_id == p)

/-- The body of `get_activity_descendants`'s `for` loop, parametrised by
the recursive call `f`: each direct child is appended, then its own
descendants are spliced in. -/
def descStep (f : String → Option (List Activity)) : List Activity → Option (List Activity)
  | [] => some []
  | a :: rest =>
    match f a.id with
    | none => none
    | some ds =>
      match descStep f rest with
      | none => none
      | some rs => some (a :: (ds ++ rs))

/-- Fuel-indexed `get_activity_descendants(activities, activity_id)`. -/
def get_activity_descendantsF (F : List Activity) : Nat → String → Option (List Activity)
  | 0, _ => none
  | fuel + 1, x =>
    descStep (fun y => get_activity_descendantsF F fuel y)
      (F.filter fun a => a.parent_activity_id == some x)

/-- Fuel-indexed `while parent_id:` loop of `get_activity_ancestors`: the
walk stops on a falsy `parent_id` (`None` or `""`) or on a dangling
reference, and otherwise appends the resolved parent and continues. -/
def ancestorsLoopF (F : List Activity) : Nat → Option String → Option (List Activity)
  | 0, _ => none
  | fuel + 1, p =>
    match p with
    | none => some []
    | some pid =>
      if pid = "" then some []
      else
        match findById F pid with
        | none => some []
        | some parent =>
          (ancestorsLoopF F fuel parent.parent_activity_id).map fun l => parent :: l

/-- Fuel-indexed `get_activity_ancestors(activities, activity_id)`. -/
def get_activity_ancestorsF (F : List Activity) (fuel : Nat) (x : String) : Option (List Activity) :=
  match findById F x with
  | none => some []
  | some a => ancestorsLoopF F fuel a.parent_activity_id

/-- `get_root_activities(activities)`: the records with falsy
`parent_activity_id`, in snapshot order. -/
def get_root_activities (F : List Activity) : List Activity :=
  F.filter fun a => !(truthy a.parent_activity_id)

/-- Fuel-indexed `calculate_activity_depth`. -/
def calculate_activity_depthF (F : List Activity) (fuel : Nat) (x : String) : Option Nat :=
  (get_activity_ancestorsF F fuel x).map List.length

/-- Fuel-indexed `is_ancestor_of`. -/
def is_ancestor_ofF (F : List Activity) (fuel : Nat) (aid did : String) : Option Bool :=
  (get_activity_ancestorsF F fuel did).map fun l => l.any fun r => r.id == aid

/-- Canonical fuel: `length + 1` levels suffice on acyclic snapshots. -/
def canonFuel (F : List Activity) : Nat := F.length + 1

/-- `get_activity_tree` at canonical fuel. -/
def get_activity_tree (F : List Activity) (p : Option String) : List TreeNode :=
  (get_activity_treeF F (canonFuel F) p).getD []

/-- `get_activity_descendants` at canonical fuel. -/
def get_activity_descendants (F : List Activity) (x : String) : List Activity :=
  (get_activity_descendantsF F (canonFuel F) x).getD []

/-- `get_activity_ancestors` at canonical fuel. -/
def get_activity_ancestors (F : List Activity) (x : String) : List Activity :=
  (get_activity_ancestorsF F (canonFuel F) x).getD []

/-- `calculate_activity_depth` at canonical fuel. -/
def calculate_activity_depth (F : List Activity) (x : String) : Nat :=
  (get_activity_ancestors F x).length

/-- `is_ancestor_of` at canonical fuel. -/
def is_ancestor_of (F : List Activity) (aid did : String) : Bool :=
  (get_activity_ancestors F did).any fun r => r.id == aid

mutual

/-- Pre-order flattening of one tree node. -/
def flattenTree : TreeNode → List Activity
  | TreeNode.leaf a => [a]
  | TreeNode.node a cs => a :: flattenForest cs

/-- Pre-order flattening of a list of tree nodes. -/
def flattenForest : List TreeNode → List Activity
  | [] => []
  | t :: ts => flattenTree t ++ flattenForest ts

end

/-- Snapshot well-formedness from the data model: ids are unique. -/
@[reducible] def NodupIds (F : List Activity) : Prop := (F.map Activity.id).Nodup

/-- One raw step up the parent relation: resolve `parent_activity_id`
(without the truthiness stop of the ancestor walk). -/
def pstepRaw (F : List Activity) (a : Activity) : Option Activity :=
  match a.parent_activity_id with
  | none => none
  | some v => findById F v

/-- `n` raw steps up the parent relation. -/
def iterRaw (F : List Activity) : Nat → Activity → Option Activity
  | 0, a => some a
  | n + 1, a =>
    match pstepRaw F a with
    | none => none
    | some b => iterRaw F n b

/-- `rank` is a topological order witness: every parent reference points
to a strictly lower rank. -/
def rankOkB (F : List Activity) (rank : String → Nat) : Bool :=
  F.all fun a =>
    match a.parent_activity_id with
    | none => true
    | some v => decide (rank v < rank a.id)

/-- Acyclicity of the parent-reference graph, phrased as the existence of
a topological order (equivalent, for a finite graph, to the absence of
cycles). -/
def Acyclic (F : List Activity) : Prop := ∃ rank : String → Nat, rankOkB F rank = true

/-- `ReachesFrom F p x`: record `x` is produced by the tree/descendant
recursion started at parent value `p` — either `x` itself matches `p`, or
some record `a` of `F` matches `p` and `x` is reachable below `a.id`. -/
inductive ReachesFrom (F : List Activity) : Option String → Activity → Prop where
  | base : ∀ {a : Activity} {p : Option String},
      a ∈ F → a.parent_activity_id = p → ReachesFrom F p a
  | step : ∀ {a b : Activity} {p : Option String},
      a ∈ F → a.parent_activity_id = p → ReachesFrom F (some a.id) b → ReachesFrom F p b

/-! ### Lookup lemmas -/

theorem findById_some_mem {F : List Activity} {x : String} {a : Activity}
    (h : findById F x = some a) : a ∈ F :=
  List.mem_of_find?_eq_some h

theorem findById_some_id {F : List Activity} {x : String} {a : Activity}
    (h : findById F x = some a) : a.id = x := by
  have hp := List.find?_some h
  simpa using hp

theorem findById_self {F : List Activity} (hn : NodupIds F) {a : Activity} (ha : a ∈ F) :
    findById F a.id = some a := by
  induction F with
  | nil => cases ha
  | cons b rest ih =>
    have hn' : b.id ∉ rest.map Activity.id ∧ (rest.map Activity.id).Nodup := by
      simpa [NodupIds, List.nodup_cons] using hn
    rcases List.mem_cons.mp ha with rfl | hmem
    · simp [findById]
    · have hne : b.id ≠ a.id := by
        intro hEq
        exact hn'.1 (hEq ▸ List.mem_map_of_mem Activity.id hmem)
      have : (b.id == a.id) = false := by simpa using hne
      simpa [findById, List.find?_cons, this] using ih hn'.2 hmem

theorem findById_none {F : List Activity} {x : String} :
    findById F x = none ↔ ∀ a ∈ F, a.id ≠ x := by
  unfold findById
  rw [List.find?_eq_none]
  simp

theorem rankOk_lt {F : List Activity} {rank : String → Nat} (h : rankOkB F rank = true)
    {a : Activity} {v : String} (ha : a ∈ F) (hv : a.parent_activity_id = some v) :
    rank v < rank a.id := by
  have hall := List.all_eq_true.mp h a ha
  rw [hv] at hall
  exact of_decide_eq_true hall

/-! ### Counting lemmas for the termination measure -/

theorem countP_mono_le {p q : Activity → Bool} {F : List Activity}
    (h : ∀ r ∈ F, q r = true → p r = true) : F.countP q ≤ F.countP p := by
  induction F with
  | nil => simp
  | cons a rest ih =>
    have hrest : rest.countP q ≤ rest.countP p :=
      ih fun r hr => h r (List.mem_cons_of_mem a hr)
    by_cases hq : q a = true
    · have hp := h a (List.mem_cons_self a rest) hq
      simp [List.countP_cons, hq, hp]
      omega
    · have hq' : q a = false := by simpa using hq
      simp [List.countP_cons, hq']
      by_cases hp : p a = true <;> simp [hp] <;> omega

theorem countP_strict {p q : Activity → Bool} {F : List Activity} {d : Activity}
    (hd : d ∈ F) (hp : p d = true) (hq : q d = false)
    (h : ∀ r ∈ F, q r = true → p r = true) : F.countP q < F.countP p := by
  induction F with
  | nil => cases hd
  | cons a rest ih =>
    have hrest_le : rest.countP q ≤ rest.countP p :=
      countP_mono_le fun r hr => h r (List.mem_cons_of_mem a hr)
    rcases List.mem_cons.mp hd with rfl | hmem
    · simp [List.countP_cons, hp, hq]
      omega
    · have hlt := ih hmem fun r hr => h r (List.mem_cons_of_mem a hr)
      by_cases ha : q a = true
      · have hpa := h a (List.mem_cons_self a rest) ha
        simp [List.countP_cons, ha, hpa]
        omega
      · have ha' : q a = false := by simpa using ha
        simp [List.countP_cons, ha']
        by_cases hpa : p a = true <;> simp [hpa] <;> omega

theorem countP_lt_length {p : Activity → Bool} {F : List Activity} {d : Activity}
    (hd : d ∈ F) (hp : p d = false) : F.countP p < F.length := by
  have h := countP_strict (p := fun _ => true) (q := p) hd rfl hp (fun r _ _ => rfl)
  simpa [List.countP_true] using h

/-! ### One-step unfolding equations -/

theorem treeF_succ (F : List Activity) (fuel : Nat) (p : Option String) :
    get_activity_treeF F (fuel + 1) p =
      forestStep (fun x => get_activity_treeF F fuel (some x))
        (F.filter fun a => a.parent_activity_id == p) := rfl

theorem descF_succ (F : List Activity) (fuel : Nat) (x : String) :
    get_activity_descendantsF F (fuel + 1) x =
      descStep (fun y => get_activity_descendantsF F fuel y)
        (F.filter fun a => a.parent_activity_id == some x) := rfl

theorem ancLoop_none_eq (F : List Activity) (fuel : Nat) :
    ancestorsLoopF F (fuel + 1) none = some [] := rfl

theorem ancLoop_some_eq (F : List Activity) (fuel : Nat) (pid : String) :
    ancestorsLoopF F (fuel + 1) (some pid) =
      if pid = "" then some []
      else
        match findById F pid with
        | none => some []
        | some parent =>
          (ancestorsLoopF F fuel parent.parent_activity_id).map fun l => parent :: l := rfl

theorem ancLoop_empty_eq (F : List Activity) (fuel : Nat) :
    ancestorsLoopF F (fuel + 1) (some "") = some [] := rfl

theorem ancLoop_dangling_eq {F : List Activity} (fuel : Nat) {pid : String}
    (hp : pid ≠ "") (hf : findById F pid = none) :
    ancestorsLoopF F (fuel + 1) (some pid) = some [] := by
  rw [ancLoop_some_eq, if_neg hp, hf]

theorem ancLoop_found_eq {F : List Activity} (fuel : Nat) {pid : String} {parent : Activity}
    (hp : pid ≠ "") (hf : findById F pid = some parent) :
    ancestorsLoopF F (fuel + 1) (some pid) =
      (ancestorsLoopF F fuel parent.parent_activity_id).map fun l => parent :: l := by
  rw [ancLoop_some_eq, if_neg hp, hf]

theorem forestStep_nil (f : String → Option (List TreeNode)) : forestStep f [] = some [] := rfl

theorem forestStep_cons (f : String → Option (List TreeNode)) (a : Activity)
    (rest : List Activity) :
    forestStep f (a :: rest) =
      match f a.id with
      | none => none
      | some cs =>
        match forestStep f rest with
        | none => none
        | some ts =>
          some ((if cs.isEmpty then TreeNode.leaf a else TreeNode.node a cs) :: ts) := rfl

theorem descStep_nil (f : String → Option (List Activity)) : descStep f [] = some [] := rfl

theorem descStep_cons (f : String → Option (List Activity)) (a : Activity)
    (rest : List Activity) :
    descStep f (a :: rest) =
      match f a.id with
      | none => none
      | some ds =>
        match descStep f rest with
        | none => none
        | some rs => some (a :: (ds ++ rs)) := rfl

/-! ### Fuel monotonicity -/

theorem forestStep_mono {f g : String → Option (List TreeNode)}
    (h : ∀ y r, f y = some r → g y = some r) :
    ∀ l ts, forestStep f l = some ts → forestStep g l = some ts := by
  intro l
  induction l with
  | nil => intro ts ht; simpa [forestStep] using ht
  | cons a rest ih =>
    intro ts ht
    unfold forestStep at ht ⊢
    cases hf : f a.id with
    | none => rw [hf] at ht; cases ht
    | some cs =>
      rw [hf] at ht
      rw [h _ _ hf]
      cases hr : forestStep f rest with
      | none => rw [hr] at ht; cases ht
      | some ts' => rw [hr] at ht; rw [ih _ hr]; exact ht

theorem treeF_mono_succ {F : List Activity} :
    ∀ fuel (p : Option String) ts, get_activity_treeF F fuel p = some ts →
      get_activity_treeF F (fuel + 1) p = some ts := by
  intro fuel
  induction fuel with
  | zero => intro p ts h; simp [get_activity_treeF] at h
  | succ n ih =>
    intro p ts h
    simp only [get_activity_treeF] at h ⊢
    exact forestStep_mono (fun y r hy => ih (some y) r hy) _ ts h

theorem treeF_mono {F : List Activity} {f1 f2 : Nat} (hle : f1 ≤ f2) :
    ∀ {p : Option String} {ts}, get_activity_treeF F f1 p = some ts →
      get_activity_treeF F f2 p = some ts := by
  induction hle with
  | refl => exact fun h => h
  | step _ ih => exact fun h => treeF_mono_succ _ _ _ (ih h)

theorem descStep_mono {f g : String → Option (List Activity)}
    (h : ∀ y r, f y = some r → g y = some r) :
    ∀ l ds, descStep f l = some ds → descStep g l = some ds := by
  intro l
  induction l with
  | nil => intro ds ht; simpa [descStep] using ht
  | cons a rest ih =>
    intro ds ht
    unfold descStep at ht ⊢
    cases hf : f a.id with
    | none => rw [hf] at ht; cases ht
    | some cs =>
      rw [hf] at ht
      rw [h _ _ hf]
      cases hr : descStep f rest with
      | none => rw [hr] at ht; cases ht
      | some rs => rw [hr] at ht; rw [ih _ hr]; exact ht

theorem descF_mono_succ {F : List Activity} :
    ∀ fuel (x : String) ds, get_activity_descendantsF F fuel x = some ds →
      get_activity_descendantsF F (fuel + 1) x = some ds := by
  intro fuel
  induction fuel with
  | zero => intro x ds h; simp [get_activity_descendantsF] at h
  | succ n ih =>
    intro x ds h
    simp only [get_activity_descendantsF] at h ⊢
    exact descStep_mono (fun y r hy => ih y r hy) _ ds h

theorem descF_mono {F : List Activity} {f1 f2 : Nat} (hle : f1 ≤ f2) :
    ∀ {x : String} {ds}, get_activity_descendantsF F f1 x = some ds →
      get_activity_descendantsF F f2 x = some ds := by
  induction hle with
  | refl => exact fun h => h
  | step _ ih => exact fun h => descF_mono_succ _ _ _ (ih h)

theorem ancLoop_mono_succ {F : List Activity} :
    ∀ fuel (p : Option String) l, ancestorsLoopF F fuel p = some l →
      ancestorsLoopF F (fuel + 1) p = some l := by
  intro fuel
  induction fuel with
  | zero => intro p l h; simp [ancestorsLoopF] at h
  | succ n ih =>
    intro p l h
    cases p with
    | none => simpa [ancestorsLoopF] using h
    | some pid =>
      by_cases hp : pid = ""
      · simp [ancestorsLoopF, hp] at h ⊢
        exact h
      · cases hf : findById F pid with
        | none =>
          rw [ancLoop_dangling_eq n hp hf] at h
          rw [ancLoop_dangling_eq (n + 1) hp hf]
          exact h
        | some parent =>
          rw [ancLoop_found_eq n hp hf] at h
          rw [ancLoop_found_eq (n + 1) hp hf]
          cases hrec : ancestorsLoopF F n parent.parent_activity_id with
          | none => rw [hrec] at h; simp at h
          | some l' =>
            rw [hrec] at h
            rw [ih _ _ hrec]
            exact h

theorem ancLoop_mono {F : List Activity} {f1 f2 : Nat} (hle : f1 ≤ f2) :
    ∀ {p : Option String} {l}, ancestorsLoopF F f1 p = some l →
      ancestorsLoopF F f2 p = some l := by
  induction hle with
  | refl => exact fun h => h
  | step _ ih => exact fun h => ancLoop_mono_succ _ _ _ (ih h)

theorem ancestorsF_mono {F : List Activity} {f1 f2 : Nat} (hle : f1 ≤ f2)
    {x : String} {l : List Activity} (h : get_activity_ancestorsF F f1 x = some l) :
    get_activity_ancestorsF F f2 x = some l := by
  unfold get_activity_ancestorsF at h ⊢
  cases hf : findById F x with
  | none => rw [hf] at h; exact h
  | some a => rw [hf] at h; exact ancLoop_mono hle h

theorem ancestorsF_missing {F : List Activity} {x : String} (hf : findById F x = none)
    (fuel : Nat) : get_activity_ancestorsF F fuel x = some [] := by
  unfold get_activity_ancestorsF
  rw [hf]

theorem ancestorsF_found {F : List Activity} {x : String} {a : Activity}
    (hf : findById F x = some a) (fuel : Nat) :
    get_activity_ancestorsF F fuel x = ancestorsLoopF F fuel a.parent_activity_id := by
  unfold get_activity_ancestorsF
  rw [hf]

/-! ### Termination on acyclic snapshots -/

theorem forestStep_ne_none {f : String → Option (List TreeNode)} {l : List Activity}
    (h : ∀ a ∈ l, f a.id ≠ none) : forestStep f l ≠ none := by
  induction l with
  | nil => simp [forestStep_nil]
  | cons a rest ih =>
    cases hf : f a.id with
    | none => exact absurd hf (h a (List.mem_cons_self a rest))
    | some cs =>
      cases hrr : forestStep f rest with
      | none => exact absurd hrr (ih fun b hb => h b (List.mem_cons_of_mem a hb))
      | some ts => simp [forestStep_cons, hf, hrr]

theorem descStep_ne_none {f : String → Option (List Activity)} {l : List Activity}
    (h : ∀ a ∈ l, f a.id ≠ none) : descStep f l ≠ none := by
  induction l with
  | nil => simp [descStep_nil]
  | cons a rest ih =>
    cases hf : f a.id with
    | none => exact absurd hf (h a (List.mem_cons_self a rest))
    | some ds =>
      cases hrr : descStep f rest with
      | none => exact absurd hrr (ih fun b hb => h b (List.mem_cons_of_mem a hb))
      | some rs => simp [descStep_cons, hf, hrr]

theorem treeF_term_aux {F : List Activity} {rank : String → Nat} (hr : rankOkB F rank = true) :
    ∀ k (x : String), F.countP (fun r => decide (rank x < rank r.id)) ≤ k →
      get_activity_treeF F (k + 1) (some x) ≠ none := by
  intro k
  induction k with
  | zero =>
    intro x hcount
    rw [treeF_succ]
    apply forestStep_ne_none
    intro a ha
    exfalso
    have hmem := List.mem_filter.mp ha
    have hpar : a.parent_activity_id = some x := by simpa using hmem.2
    have hlt : rank x < rank a.id := rankOk_lt hr hmem.1 hpar
    have hpos : 0 < F.countP (fun r => decide (rank x < rank r.id)) :=
      List.countP_pos_iff.mpr ⟨a, hmem.1, by simpa using hlt⟩
    omega
  | succ k ih =>
    intro x hcount
    rw [treeF_succ]
    apply forestStep_ne_none
    intro a ha
    have hmem := List.mem_filter.mp ha
    have hpar : a.parent_activity_id = some x := by simpa using hmem.2
    have hlt : rank x < rank a.id := rankOk_lt hr hmem.1 hpar
    have hstrict : F.countP (fun r => decide (rank a.id < rank r.id)) <
        F.countP (fun r => decide (rank x < rank r.id)) := by
      apply countP_strict hmem.1 (by simpa using hlt) (by simp)
      intro r _ hq
      simp at hq ⊢
      omega
    exact ih a.id (by omega)

theorem treeF_term {F : List Activity} (hacyc : Acyclic F) (p : Option String) :
    get_activity_treeF F (F.length + 1) p ≠ none := by
  obtain ⟨rank, hr⟩ := hacyc
  rw [treeF_succ]
  apply forestStep_ne_none
  intro a ha
  have hmem := (List.mem_filter.mp ha).1
  have hlt : F.countP (fun r => decide (rank a.id < rank r.id)) < F.length :=
    countP_lt_length hmem (by simp)
  obtain ⟨n, hn⟩ : ∃ n, F.length = n + 1 := by
    cases F with
    | nil => cases hmem
    | cons b rest => exact ⟨rest.length, by simp⟩
  rw [hn]
  exact treeF_term_aux hr n a.id (by omega)

theorem descF_term_aux {F : List Activity} {rank : String → Nat} (hr : rankOkB F rank = true) :
    ∀ k (x : String), F.countP (fun r => decide (rank x < rank r.id)) ≤ k →
      get_activity_descendantsF F (k + 1) x ≠ none := by
  intro k
  induction k with
  | zero =>
    intro x hcount
    rw [descF_succ]
    apply descStep_ne_none
    intro a ha
    exfalso
    have hmem := List.mem_filter.mp ha
    have hpar : a.parent_activity_id = some x := by simpa using hmem.2
    have hlt : rank x < rank a.id := rankOk_lt hr hmem.1 hpar
    have hpos : 0 < F.countP (fun r => decide (rank x < rank r.id)) :=
      List.countP_pos_iff.mpr ⟨a, hmem.1, by simpa using hlt⟩
    omega
  | succ k ih =>
    intro x hcount
    rw [descF_succ]
    apply descStep_ne_none
    intro a ha
    have hmem := List.mem_filter.mp ha
    have hpar : a.parent_activity_id = some x := by simpa using hmem.2
    have hlt : rank x < rank a.id := rankOk_lt hr hmem.1 hpar
    have hstrict : F.countP (fun r => decide (rank a.id < rank r.id)) <
        F.countP (fun r => decide (rank x < rank r.id)) := by
      apply countP_strict hmem.1 (by simpa using hlt) (by simp)
      intro r _ hq
      simp at hq ⊢
      omega
    exact ih a.id (by omega)

theorem descF_term {F : List Activity} (hacyc : Acyclic F) (x : String) :
    get_activity_descendantsF F (F.length + 1) x ≠ none := by
  obtain ⟨rank, hr⟩ := hacyc
  rw [descF_succ]
  apply descStep_ne_none
  intro a ha
  have hmem := (List.mem_filter.mp ha).1
  have hlt : F.countP (fun r => decide (rank a.id < rank r.id)) < F.length :=
    countP_lt_length hmem (by simp)
  obtain ⟨n, hn⟩ : ∃ n, F.length = n + 1 := by
    cases F with
    | nil => cases hmem
    | cons b rest => exact ⟨rest.length, by simp⟩
  rw [hn]
  exact descF_term_aux hr n a.id (by omega)

theorem ancLoop_term_aux {F : List Activity} {rank : String → Nat} (hr : rankOkB F rank = true) :
    ∀ k (Q : Activity), Q ∈ F → F.countP (fun r => decide (rank r.id < rank Q.id)) ≤ k →
      ancestorsLoopF F (k + 1) Q.parent_activity_id ≠ none := by
  intro k
  induction k with
  | zero =>
    intro Q hQ hcount
    cases hpar : Q.parent_activity_id with
    | none => rw [ancLoop_none_eq]; simp
    | some w =>
      by_cases hw : w = ""
      · subst hw; rw [ancLoop_empty_eq]; simp
      · cases hfw : findById F w with
        | none => rw [ancLoop_dangling_eq 0 hw hfw]; simp
        | some R =>
          exfalso
          have hRmem : R ∈ F := findById_some_mem hfw
          have hRid : R.id = w := findById_some_id hfw
          have hlt : rank w < rank Q.id := rankOk_lt hr hQ hpar
          have hpos : 0 < F.countP (fun r => decide (rank r.id < rank Q.id)) :=
            List.countP_pos_iff.mpr ⟨R, hRmem, by rw [hRid]; simpa using hlt⟩
          omega
  | succ k ih =>
    intro Q hQ hcount
    cases hpar : Q.parent_activity_id with
    | none => rw [ancLoop_none_eq]; simp
    | some w =>
      by_cases hw : w = ""
      · subst hw; rw [ancLoop_empty_eq]; simp
      · cases hfw : findById F w with
        | none => rw [ancLoop_dangling_eq _ hw hfw]; simp
        | some R =>
          rw [ancLoop_found_eq _ hw hfw]
          have hRmem : R ∈ F := findById_some_mem hfw
          have hRid : R.id = w := findById_some_id hfw
          have hlt : rank w < rank Q.id := rankOk_lt hr hQ hpar
          have hstrict : F.countP (fun r => decide (rank r.id < rank R.id)) <
              F.countP (fun r => decide (rank r.id < rank Q.id)) := by
            apply countP_strict hRmem (by rw [hRid]; simpa using hlt) (by simp)
            intro r _ hq
            simp at hq ⊢
            rw [hRid] at hq
            omega
          have hrec := ih R hRmem (by omega)
          cases hl : ancestorsLoopF F (k + 1) R.parent_activity_id with
          | none => exact absurd hl hrec
          | some l => simp [hl]

theorem ancestorsF_term {F : List Activity} (hacyc : Acyclic F) (x : String) :
    get_activity_ancestorsF F (F.length + 1) x ≠ none := by
  obtain ⟨rank, hr⟩ := hacyc
  cases hf : findById F x with
  | none => rw [ancestorsF_missing hf]; simp
  | some a =>
    rw [ancestorsF_found hf]
    have hmem := findById_some_mem hf
    have hlt : F.countP (fun r => decide (rank r.id < rank a.id)) < F.length :=
      countP_lt_length hmem (by simp)
    exact ancLoop_term_aux hr F.length a hmem (by omega)

/-! ### Flattening equations -/

theorem flattenForest_nil : flattenForest [] = [] := rfl

theorem flattenForest_cons (t : TreeNode) (ts : List TreeNode) :
    flattenForest (t :: ts) = flattenTree t ++ flattenForest ts := rfl

theorem flattenTree_mk (a : Activity) (cs : List TreeNode) :
    flattenTree (if cs.isEmpty then TreeNode.leaf a else TreeNode.node a cs) =
      a :: flattenForest cs := by
  cases cs with
  | nil => simp [flattenTree, flattenForest_nil]
  | cons t ts => simp [flattenTree]

theorem mk_eq_leaf (a : Activity) :
    (if ([] : List TreeNode).isEmpty then TreeNode.leaf a else TreeNode.node a []) =
      TreeNode.leaf a := rfl

theorem mk_eq_node (a : Activity) {cs : List TreeNode} (h : cs ≠ []) :
    (if cs.isEmpty then TreeNode.leaf a else TreeNode.node a cs) = TreeNode.node a cs := by
  rw [if_neg (by simpa [List.isEmpty_iff] using h)]

theorem act_mk (a : Activity) (cs : List TreeNode) :
    (if cs.isEmpty then TreeNode.leaf a else TreeNode.node a cs).act = a := by
  cases cs <;> simp [TreeNode.act]

/-! ### What the tree recursion emits -/

theorem forestStep_map_act {f : String → Option (List TreeNode)} :
    ∀ {l ts}, forestStep f l = some ts → ts.map TreeNode.act = l := by
  intro l
  induction l with
  | nil => intro ts h; rw [forestStep_nil] at h; injection h with h; subst h; rfl
  | cons a rest ih =>
    intro ts h
    rw [forestStep_cons] at h
    cases hf : f a.id with
    | none => rw [hf] at h; cases h
    | some cs =>
      rw [hf] at h
      cases hrr : forestStep f rest with
      | none => rw [hrr] at h; cases h
      | some ts' =>
        rw [hrr] at h
        injection h with h
        subst h
        simp [act_mk, ih hrr]

theorem forestStep_pieces {f : String → Option (List TreeNode)} :
    ∀ {l ts}, forestStep f l = some ts → ∀ x ∈ flattenForest ts,
      ∃ a ∈ l, x = a ∨ ∃ cs, f a.id = some cs ∧ x ∈ flattenForest cs := by
  intro l
  induction l with
  | nil =>
    intro ts h x hx
    rw [forestStep_nil] at h
    injection h with h
    subst h
    simp [flattenForest_nil] at hx
  | cons a rest ih =>
    intro ts h x hx
    rw [forestStep_cons] at h
    cases hf : f a.id with
    | none => rw [hf] at h; cases h
    | some cs =>
      rw [hf] at h
      cases hrr : forestStep f rest with
      | none => rw [hrr] at h; cases h
      | some ts' =>
        rw [hrr] at h
        injection h with h
        subst h
        rw [flattenForest_cons, flattenTree_mk] at hx
        rcases List.mem_append.mp hx with hx1 | hx2
        · rcases List.mem_cons.mp hx1 with rfl | hxcs
          · exact ⟨x, List.mem_cons_self x rest, Or.inl rfl⟩
          · exact ⟨a, List.mem_cons_self a rest, Or.inr ⟨cs, hf, hxcs⟩⟩
        · obtain ⟨b, hb, hcase⟩ := ih hrr x hx2
          exact ⟨b, List.mem_cons_of_mem a hb, hcase⟩

theorem forestStep_mem_of {f : String → Option (List TreeNode)} {a : Activity} :
    ∀ {l ts}, a ∈ l → forestStep f l = some ts →
      a ∈ flattenForest ts ∧
        ∃ cs, f a.id = some cs ∧ ∀ x ∈ flattenForest cs, x ∈ flattenForest ts := by
  intro l
  induction l with
  | nil => intro ts ha; cases ha
  | cons b rest ih =>
    intro ts ha h
    rw [forestStep_cons] at h
    cases hf : f b.id with
    | none => rw [hf] at h; cases h
    | some cs =>
      rw [hf] at h
      cases hrr : forestStep f rest with
      | none => rw [hrr] at h; cases h
      | some ts' =>
        rw [hrr] at h
        injection h with h
        subst h
        rcases List.mem_cons.mp ha with rfl | hmem
        · refine ⟨?_, cs, hf, ?_⟩
          · rw [flattenForest_cons, flattenTree_mk]
            exact List.mem_append_left _ (List.mem_cons_self a _)
          · intro x hx
            rw [flattenForest_cons, flattenTree_mk]
            exact List.mem_append_left _ (List.mem_cons_of_mem a hx)
        · obtain ⟨h1, cs', hf', h2⟩ := ih hmem hrr
          refine ⟨?_, cs', hf', ?_⟩
          · rw [flattenForest_cons]
            exact List.mem_append_right _ h1
          · intro x hx
            rw [flattenForest_cons]
            exact List.mem_append_right _ (h2 x hx)

theorem treeF_sound {F : List Activity} :
    ∀ fuel (p : Option String) ts, get_activity_treeF F fuel p = some ts →
      ∀ x ∈ flattenForest ts, ReachesFrom F p x := by
  intro fuel
  induction fuel with
  | zero => intro p ts h; simp [get_activity_treeF] at h
  | succ n ih =>
    intro p ts h x hx
    rw [treeF_succ] at h
    obtain ⟨a, hal, hcase⟩ := forestStep_pieces h x hx
    have hmem := List.mem_filter.mp hal
    have hpar : a.parent_activity_id = p := by simpa using hmem.2
    rcases hcase with rfl | ⟨cs, hfcs, hxcs⟩
    · exact ReachesFrom.base hmem.1 hpar
    · exact ReachesFrom.step hmem.1 hpar (ih (some a.id) cs hfcs x hxcs)

theorem treeF_complete {F : List Activity} {p : Option String} {x : Activity}
    (hreach : ReachesFrom F p x) :
    ∀ fuel ts, get_activity_treeF F fuel p = some ts → x ∈ flattenForest ts := by
  induction hreach with
  | base ha hpar =>
    intro fuel ts h
    cases fuel with
    | zero => simp [get_activity_treeF] at h
    | succ n =>
      rw [treeF_succ] at h
      exact (forestStep_mem_of (List.mem_filter.mpr ⟨ha, by simp [hpar]⟩) h).1
  | step ha hpar _ ih =>
    intro fuel ts h
    cases fuel with
    | zero => simp [get_activity_treeF] at h
    | succ n =>
      rw [treeF_succ] at h
      obtain ⟨_, cs, hfcs, hsubset⟩ :=
        forestStep_mem_of (List.mem_filter.mpr ⟨ha, by simp [hpar]⟩) h
      exact hsubset _ (ih n cs hfcs)

/-! ### What the descendant recursion emits -/

theorem descStep_pieces {f : String → Option (List Activity)} :
    ∀ {l ds}, descStep f l = some ds → ∀ x ∈ ds,
      ∃ a ∈ l, x = a ∨ ∃ l', f a.id = some l' ∧ x ∈ l' := by
  intro l
  induction l with
  | nil =>
    intro ds h x hx
    rw [descStep_nil] at h
    injection h with h
    subst h
    cases hx
  | cons a rest ih =>
    intro ds h x hx
    rw [descStep_cons] at h
    cases hf : f a.id with
    | none => rw [hf] at h; cases h
    | some l' =>
      rw [hf] at h
      cases hrr : descStep f rest with
      | none => rw [hrr] at h; cases h
      | some rs =>
        rw [hrr] at h
        injection h with h
        subst h
        rcases List.mem_cons.mp hx with rfl | hx'
        · exact ⟨x, List.mem_cons_self x rest, Or.inl rfl⟩
        · rcases List.mem_append.mp hx' with hx1 | hx2
          · exact ⟨a, List.mem_cons_self a rest, Or.inr ⟨l', hf, hx1⟩⟩
          · obtain ⟨b, hb, hcase⟩ := ih hrr x hx2
            exact ⟨b, List.mem_cons_of_mem a hb, hcase⟩

theorem descStep_mem_of {f : String → Option (List Activity)} {a : Activity} :
    ∀ {l ds}, a ∈ l → descStep f l = some ds →
      a ∈ ds ∧ ∃ l', f a.id = some l' ∧ ∀ x ∈ l', x ∈ ds := by
  intro l
  induction l with
  | nil => intro ds ha; cases ha
  | cons b rest ih =>
    intro ds ha h
    rw [descStep_cons] at h
    cases hf : f b.id with
    | none => rw [hf] at h; cases h
    | some l' =>
      rw [hf] at h
      cases hrr : descStep f rest with
      | none => rw [hrr] at h; cases h
      | some rs =>
        rw [hrr] at h
        injection h with h
        subst h
        rcases List.mem_cons.mp ha with rfl | hmem
        · refine ⟨List.mem_cons_self a _, l', hf, ?_⟩
          intro x hx
          exact List.mem_cons_of_mem a (List.mem_append_left _ hx)
        · obtain ⟨h1, l'', hf', h2⟩ := ih hmem hrr
          refine ⟨List.mem_cons_of_mem b (List.mem_append_right _ h1), l'', hf', ?_⟩
          intro x hx
          exact List.mem_cons_of_mem b (List.mem_append_right _ (h2 x hx))

theorem descF_sound {F : List Activity} :
    ∀ fuel (x : String) ds, get_activity_descendantsF F fuel x = some ds →
      ∀ y ∈ ds, ReachesFrom F (some x) y := by
  intro fuel
  induction fuel with
  | zero => intro x ds h; simp [get_activity_descendantsF] at h
  | succ n ih =>
    intro x ds h y hy
    rw [descF_succ] at h
    obtain ⟨a, hal, hcase⟩ := descStep_pieces h y hy
    have hmem := List.mem_filter.mp hal
    have hpar : a.parent_activity_id = some x := by simpa using hmem.2
    rcases hcase with rfl | ⟨l', hfl, hyl⟩
    · exact ReachesFrom.base hmem.1 hpar
    · exact ReachesFrom.step hmem.1 hpar (ih a.id l' hfl y hyl)

theorem descF_complete {F : List Activity} {x : String} {y : Activity}
    (hreach : ReachesFrom F (some x) y) :
    ∀ fuel ds, get_activity_descendantsF F fuel x = some ds → y ∈ ds := by
  generalize hpx : (some x : Option String) = p at hreach
  induction hreach generalizing x with
  | base ha hpar =>
    intro fuel ds h
    cases fuel with
    | zero => simp [get_activity_descendantsF] at h
    | succ n =>
      subst hpx
      rw [descF_succ] at h
      exact (descStep_mem_of (List.mem_filter.mpr ⟨ha, by simp [hpar]⟩) h).1
  | step ha hpar _ ih =>
    intro fuel ds h
    cases fuel with
    | zero => simp [get_activity_descendantsF] at h
    | succ n =>
      subst hpx
      rw [descF_succ] at h
      obtain ⟨_, l', hfl, hsubset⟩ :=
        descStep_mem_of (List.mem_filter.mpr ⟨ha, by simp [hpar]⟩) h
      exact hsubset _ (ih rfl n l' hfl)

theorem descStep_join {f : String → Option (List Activity)} :
    ∀ {l ds}, descStep f l = some ds →
      ds = (l.map fun a => a :: (f a.id).getD []).flatten := by
  intro l
  induction l with
  | nil =>
    intro ds h
    rw [descStep_nil] at h
    injection h with h
    subst h
    rfl
  | cons a rest ih =>
    intro ds h
    rw [descStep_cons] at h
    cases hf : f a.id with
    | none => rw [hf] at h; cases h
    | some l' =>
      rw [hf] at h
      cases hrr : descStep f rest with
      | none => rw [hrr] at h; cases h
      | some rs =>
        rw [hrr] at h
        injection h with h
        subst h
        simp [hf, ih hrr]

/-! ### Chains of raw parent steps -/

theorem iterRaw_zero (F : List Activity) (a : Activity) : iterRaw F 0 a = some a := rfl

theorem iterRaw_succ (F : List Activity) (n : Nat) (a : Activity) :
    iterRaw F (n + 1) a =
      match pstepRaw F a with
      | none => none
      | some b => iterRaw F n b := rfl

theorem iterRaw_succ_none {F : List Activity} {a : Activity} (n : Nat)
    (hp : pstepRaw F a = none) : iterRaw F (n + 1) a = none := by
  rw [iterRaw_succ, hp]

theorem iterRaw_succ_some {F : List Activity} {a b : Activity} (n : Nat)
    (hp : pstepRaw F a = some b) : iterRaw F (n + 1) a = iterRaw F n b := by
  rw [iterRaw_succ, hp]

theorem pstepRaw_mem {F : List Activity} {a b : Activity} (h : pstepRaw F a = some b) :
    b ∈ F := by
  unfold pstepRaw at h
  cases hpar : a.parent_activity_id with
  | none => rw [hpar] at h; cases h
  | some v => rw [hpar] at h; exact findById_some_mem h

theorem pstepRaw_rank_lt {F : List Activity} {rank : String → Nat}
    (hr : rankOkB F rank = true) {a b : Activity} (ha : a ∈ F)
    (h : pstepRaw F a = some b) : rank b.id < rank a.id := by
  unfold pstepRaw at h
  cases hpar : a.parent_activity_id with
  | none => rw [hpar] at h; cases h
  | some v =>
    rw [hpar] at h
    rw [findById_some_id h]
    exact rankOk_lt hr ha hpar

theorem iterRaw_rank_lt {F : List Activity} {rank : String → Nat}
    (hr : rankOkB F rank = true) :
    ∀ n {a b : Activity}, a ∈ F → iterRaw F (n + 1) a = some b → rank b.id < rank a.id := by
  intro n
  induction n with
  | zero =>
    intro a b ha h
    cases hp : pstepRaw F a with
    | none => rw [iterRaw_succ_none 0 hp] at h; cases h
    | some c =>
      rw [iterRaw_succ_some 0 hp, iterRaw_zero] at h
      injection h with h
      subst h
      exact pstepRaw_rank_lt hr ha hp
  | succ n ih =>
    intro a b ha h
    cases hp : pstepRaw F a with
    | none => rw [iterRaw_succ_none _ hp] at h; cases h
    | some c =>
      rw [iterRaw_succ_some _ hp] at h
      exact lt_trans (ih (pstepRaw_mem hp) h) (pstepRaw_rank_lt hr ha hp)

theorem iterRaw_split {F : List Activity} :
    ∀ n k {x a b : Activity}, iterRaw F n x = some a → iterRaw F (n + k) x = some b →
      iterRaw F k a = some b := by
  intro n
  induction n with
  | zero =>
    intro k x a b h1 h2
    rw [iterRaw_zero] at h1
    injection h1 with h1
    subst h1
    simpa using h2
  | succ n ih =>
    intro k x a b h1 h2
    cases hp : pstepRaw F x with
    | none => rw [iterRaw_succ_none _ hp] at h1; cases h1
    | some c =>
      rw [iterRaw_succ_some _ hp] at h1
      have harith : n + 1 + k = (n + k) + 1 := by omega
      rw [harith, iterRaw_succ_some _ hp] at h2
      exact ih k h1 h2

theorem iterRaw_snoc {F : List Activity} :
    ∀ n {x b c : Activity}, iterRaw F n x = some b → pstepRaw F b = some c →
      iterRaw F (n + 1) x = some c := by
  intro n
  induction n with
  | zero =>
    intro x b c h1 h2
    rw [iterRaw_zero] at h1
    injection h1 with h1
    subst h1
    rw [iterRaw_succ_some 0 h2, iterRaw_zero]
  | succ n ih =>
    intro x b c h1 h2
    cases hp : pstepRaw F x with
    | none => rw [iterRaw_succ_none _ hp] at h1; cases h1
    | some d =>
      rw [iterRaw_succ_some _ hp] at h1
      rw [iterRaw_succ_some (n + 1) hp]
      exact ih h1 h2

theorem reaches_iterRaw {F : List Activity} (hn : NodupIds F) {p : Option String} {x : Activity}
    (h : ReachesFrom F p x) :
    ∀ {a : Activity}, a ∈ F → p = some a.id → ∃ n, iterRaw F (n + 1) x = some a := by
  induction h with
  | @base b pp hbF hbp =>
    intro a haF hpeq
    refine ⟨0, ?_⟩
    have hp : pstepRaw F b = some a := by
      unfold pstepRaw
      rw [hbp, hpeq]
      exact findById_self hn haF
    rw [iterRaw_succ_some 0 hp, iterRaw_zero]
  | @step A X pp hbF hbp _ ih =>
    intro a haF hpeq
    obtain ⟨n, hiter⟩ := ih hbF rfl
    have hp : pstepRaw F A = some a := by
      unfold pstepRaw
      rw [hbp, hpeq]
      exact findById_self hn haF
    exact ⟨n + 1, iterRaw_snoc (n + 1) hiter hp⟩

theorem anchor_unique_aux {F : List Activity} {rank : String → Nat}
    (hr : rankOkB F rank = true) {p : Option String} {x a b : Activity}
    (_haF : a ∈ F) (hbF : b ∈ F)
    (hap : a.parent_activity_id = p) (hbp : b.parent_activity_id = p)
    {n m : Nat} (hle : n ≤ m) (h1 : iterRaw F n x = some a) (h2 : iterRaw F m x = some b) :
    a = b := by
  obtain ⟨k, rfl⟩ := Nat.le.dest hle
  have hk : iterRaw F k a = some b := iterRaw_split n k h1 h2
  cases k with
  | zero =>
    rw [iterRaw_zero] at hk
    injection hk
  | succ j =>
    exfalso
    cases hpa : pstepRaw F a with
    | none => rw [iterRaw_succ_none _ hpa] at hk; cases hk
    | some c =>
      rw [iterRaw_succ_some _ hpa] at hk
      obtain ⟨w, haw, hfw⟩ : ∃ w, a.parent_activity_id = some w ∧ findById F w = some c := by
        unfold pstepRaw at hpa
        cases hpar : a.parent_activity_id with
        | none => rw [hpar] at hpa; cases hpa
        | some w => rw [hpar] at hpa; exact ⟨w, rfl, hpa⟩
      have hcid : c.id = w := findById_some_id hfw
      have hcF : c ∈ F := findById_some_mem hfw
      have hbw : b.parent_activity_id = some w := by rw [hbp, ← hap, haw]
      have hlt2 : rank w < rank b.id := rankOk_lt hr hbF hbw
      cases j with
      | zero =>
        rw [iterRaw_zero] at hk
        injection hk with hk
        subst hk
        rw [hcid] at hlt2
        omega
      | succ i =>
        have hlt1 : rank b.id < rank w := by
          have := iterRaw_rank_lt hr i hcF hk
          rwa [hcid] at this
        omega

theorem anchor_unique {F : List Activity} {rank : String → Nat}
    (hr : rankOkB F rank = true) {p : Option String} {x a b : Activity}
    (haF : a ∈ F) (hbF : b ∈ F)
    (hap : a.parent_activity_id = p) (hbp : b.parent_activity_id = p)
    {n m : Nat} (h1 : iterRaw F n x = some a) (h2 : iterRaw F m x = some b) : a = b := by
  rcases Nat.le_total n m with hle | hle
  · exact anchor_unique_aux hr haF hbF hap hbp hle h1 h2
  · exact (anchor_unique_aux hr hbF haF hbp hap hle h2 h1).symm

/-! ### No duplicates in the emitted flattenings -/

theorem not_reaches_self {F : List Activity} {rank : String → Nat}
    (hr : rankOkB F rank = true) (hn : NodupIds F) {a : Activity} (haF : a ∈ F)
    (h : ReachesFrom F (some a.id) a) : False := by
  obtain ⟨n, hiter⟩ := reaches_iterRaw hn h haF rfl
  have := iterRaw_rank_lt hr n haF hiter
  omega

theorem forestStep_nodup_aux {F : List Activity} {rank : String → Nat}
    (hr : rankOkB F rank = true) (hn : NodupIds F) (p : Option String)
    {f : String → Option (List TreeNode)}
    (hsound : ∀ a ∈ F, ∀ cs, f a.id = some cs →
      ∀ x ∈ flattenForest cs, ReachesFrom F (some a.id) x)
    (hnd : ∀ a ∈ F, ∀ cs, f a.id = some cs → (flattenForest cs).Nodup) :
    ∀ l, l.Nodup → (∀ a ∈ l, a ∈ F ∧ a.parent_activity_id = p) →
      ∀ ts, forestStep f l = some ts → (flattenForest ts).Nodup := by
  intro l
  induction l with
  | nil =>
    intro _ _ ts h
    rw [forestStep_nil] at h
    injection h with h
    subst h
    simp [flattenForest_nil]
  | cons a rest ih =>
    intro hd hmem ts h
    have haF : a ∈ F := (hmem a (List.mem_cons_self a rest)).1
    have hap : a.parent_activity_id = p := (hmem a (List.mem_cons_self a rest)).2
    rw [forestStep_cons] at h
    cases hf : f a.id with
    | none => rw [hf] at h; cases h
    | some cs =>
      rw [hf] at h
      cases hrr : forestStep f rest with
      | none => rw [hrr] at h; cases h
      | some ts' =>
        rw [hrr] at h
        injection h with h
        subst h
        rw [flattenForest_cons, flattenTree_mk]
        rw [List.nodup_append]
        refine ⟨?_, ?_, ?_⟩
        · rw [List.nodup_cons]
          refine ⟨?_, hnd a haF cs hf⟩
          intro hxa
          exact not_reaches_self hr hn haF (hsound a haF cs hf a hxa)
        · exact ih (List.Nodup.of_cons hd) (fun b hb => hmem b (List.mem_cons_of_mem a hb)) ts' hrr
        · intro x hx1 hx2
          have hanchor1 : ∃ n, iterRaw F n x = some a := by
            rcases List.mem_cons.mp hx1 with rfl | hxcs
            · exact ⟨0, iterRaw_zero F x⟩
            · obtain ⟨n, hi⟩ := reaches_iterRaw hn (hsound a haF cs hf x hxcs) haF rfl
              exact ⟨n + 1, hi⟩
          obtain ⟨a', ha'rest, hcase⟩ := forestStep_pieces hrr x hx2
          have ha'F : a' ∈ F := (hmem a' (List.mem_cons_of_mem a ha'rest)).1
          have ha'p : a'.parent_activity_id = p := (hmem a' (List.mem_cons_of_mem a ha'rest)).2
          have hanchor2 : ∃ m, iterRaw F m x = some a' := by
            rcases hcase with rfl | ⟨cs', hf', hxcs'⟩
            · exact ⟨0, iterRaw_zero F x⟩
            · obtain ⟨m, hi⟩ := reaches_iterRaw hn (hsound a' ha'F cs' hf' x hxcs') ha'F rfl
              exact ⟨m + 1, hi⟩
          obtain ⟨n, h1⟩ := hanchor1
          obtain ⟨m, h2⟩ := hanchor2
          have : a = a' := anchor_unique hr haF ha'F hap ha'p h1 h2
          subst this
          exact (List.nodup_cons.mp hd).1 ha'rest

theorem treeF_nodup {F : List Activity} {rank : String → Nat}
    (hr : rankOkB F rank = true) (hn : NodupIds F) :
    ∀ fuel (p : Option String) ts, get_activity_treeF F fuel p = some ts →
      (flattenForest ts).Nodup := by
  intro fuel
  induction fuel with
  | zero => intro p ts h; simp [get_activity_treeF] at h
  | succ n ih =>
    intro p ts h
    rw [treeF_succ] at h
    have hFnd : F.Nodup := List.Nodup.of_map Activity.id hn
    refine forestStep_nodup_aux hr hn p
      (fun a _ cs hf x hx => treeF_sound n (some a.id) cs hf x hx)
      (fun a _ cs hf => ih (some a.id) cs hf)
      _ (hFnd.filter _) (fun a ha => ?_) ts h
    have hmem := List.mem_filter.mp ha
    exact ⟨hmem.1, by simpa using hmem.2⟩

theorem descStep_nodup_aux {F : List Activity} {rank : String → Nat}
    (hr : rankOkB F rank = true) (hn : NodupIds F) (p : Option String)
    {f : String → Option (List Activity)}
    (hsound : ∀ a ∈ F, ∀ ds, f a.id = some ds → ∀ y ∈ ds, ReachesFrom F (some a.id) y)
    (hnd : ∀ a ∈ F, ∀ ds, f a.id = some ds → ds.Nodup) :
    ∀ l, l.Nodup → (∀ a ∈ l, a ∈ F ∧ a.parent_activity_id = p) →
      ∀ ds, descStep f l = some ds → ds.Nodup := by
  intro l
  induction l with
  | nil =>
    intro _ _ ds h
    rw [descStep_nil] at h
    injection h with h
    subst h
    simp
  | cons a rest ih =>
    intro hd hmem ds h
    have haF : a ∈ F := (hmem a (List.mem_cons_self a rest)).1
    have hap : a.parent_activity_id = p := (hmem a (List.mem_cons_self a rest)).2
    rw [descStep_cons] at h
    cases hf : f a.id with
    | none => rw [hf] at h; cases h
    | some l' =>
      rw [hf] at h
      cases hrr : descStep f rest with
      | none => rw [hrr] at h; cases h
      | some rs =>
        rw [hrr] at h
        injection h with h
        subst h
        rw [List.nodup_cons, List.nodup_append]
        have hanchor_head : ∀ x ∈ l', ∃ n, iterRaw F (n + 1) x = some a := fun x hx =>
          reaches_iterRaw hn (hsound a haF l' hf x hx) haF rfl
        refine ⟨?_, hnd a haF l' hf, ih (List.Nodup.of_cons hd) (fun b hb => hmem b (List.mem_cons_of_mem a hb)) rs hrr, ?_⟩
        · intro hmem_a
          rcases List.mem_append.mp hmem_a with hx1 | hx2
          · exact not_reaches_self hr hn haF (hsound a haF l' hf a hx1)
          · obtain ⟨a', ha'rest, hcase⟩ := descStep_pieces hrr a hx2
            have ha'F : a' ∈ F := (hmem a' (List.mem_cons_of_mem a ha'rest)).1
            have ha'p : a'.parent_activity_id = p := (hmem a' (List.mem_cons_of_mem a ha'rest)).2
            have hanchor2 : ∃ m, iterRaw F m a = some a' := by
              rcases hcase with rfl | ⟨ds', hf', hads'⟩
              · exact ⟨0, iterRaw_zero F a⟩
              · obtain ⟨m, hi⟩ := reaches_iterRaw hn (hsound a' ha'F ds' hf' a hads') ha'F rfl
                exact ⟨m + 1, hi⟩
            obtain ⟨m, h2⟩ := hanchor2
            have : a = a' := anchor_unique hr haF ha'F hap ha'p (iterRaw_zero F a) h2
            subst this
            exact (List.nodup_cons.mp hd).1 ha'rest
        · intro x hx1 hx2
          obtain ⟨n, h1⟩ := hanchor_head x hx1
          obtain ⟨a', ha'rest, hcase⟩ := descStep_pieces hrr x hx2
          have ha'F : a' ∈ F := (hmem a' (List.mem_cons_of_mem a ha'rest)).1
          have ha'p : a'.parent_activity_id = p := (hmem a' (List.mem_cons_of_mem a ha'rest)).2
          have hanchor2 : ∃ m, iterRaw F m x = some a' := by
            rcases hcase with rfl | ⟨ds', hf', hxds'⟩
            · exact ⟨0, iterRaw_zero F x⟩
            · obtain ⟨m, hi⟩ := reaches_iterRaw hn (hsound a' ha'F ds' hf' x hxds') ha'F rfl
              exact ⟨m + 1, hi⟩
          obtain ⟨m, h2⟩ := hanchor2
          have : a = a' := anchor_unique hr haF ha'F hap ha'p h1 h2
          subst this
          exact (List.nodup_cons.mp hd).1 ha'rest

theorem descF_nodup {F : List Activity} {rank : String → Nat}
    (hr : rankOkB F rank = true) (hn : NodupIds F) :
    ∀ fuel (x : String) ds, get_activity_descendantsF F fuel x = some ds → ds.Nodup := by
  intro fuel
  induction fuel with
  | zero => intro x ds h; simp [get_activity_descendantsF] at h
  | succ n ih =>
    intro x ds h
    rw [descF_succ] at h
    have hFnd : F.Nodup := List.Nodup.of_map Activity.id hn
    refine descStep_nodup_aux hr hn (some x)
      (fun a _ l' hf y hy => descF_sound n a.id l' hf y hy)
      (fun a _ l' hf => ih a.id l' hf)
      _ (hFnd.filter _) (fun a ha => ?_) ds h
    have hmem := List.mem_filter.mp ha
    exact ⟨hmem.1, by simpa using hmem.2⟩

/-! ### The ancestor walk never returns its own starting record -/

theorem ancLoop_elem_run {F : List Activity} :
    ∀ fuel (p : Option String) l, ancestorsLoopF F fuel p = some l →
      ∀ x ∈ l, findById F x.id = some x ∧
        ∃ fuel' l', fuel' < fuel ∧ ancestorsLoopF F fuel' x.parent_activity_id = some l' := by
  intro fuel
  induction fuel with
  | zero => intro p l h; simp [ancestorsLoopF] at h
  | succ n ih =>
    intro p l h x hx
    cases p with
    | none =>
      rw [ancLoop_none_eq] at h
      injection h with h
      subst h
      cases hx
    | some pid =>
      by_cases hp : pid = ""
      · subst hp
        rw [ancLoop_empty_eq] at h
        injection h with h
        subst h
        cases hx
      · cases hf : findById F pid with
        | none =>
          rw [ancLoop_dangling_eq n hp hf] at h
          injection h with h
          subst h
          cases hx
        | some parent =>
          rw [ancLoop_found_eq n hp hf] at h
          cases hrec : ancestorsLoopF F n parent.parent_activity_id with
          | none => rw [hrec] at h; cases h
          | some l'' =>
            rw [hrec] at h
            injection h with h
            subst h
            rcases List.mem_cons.mp hx with rfl | hx'
            · refine ⟨by rw [findById_some_id hf]; exact hf, n, l'', Nat.lt_succ_self n, hrec⟩
            · obtain ⟨h1, fuel', l', hlt, h2⟩ := ih _ l'' hrec x hx'
              exact ⟨h1, fuel', l', Nat.lt_succ_of_lt hlt, h2⟩

theorem ancLoop_irrefl {F : List Activity} (r : Activity) :
    ∀ fuel l, ancestorsLoopF F fuel r.parent_activity_id = some l → r ∉ l := by
  intro fuel
  induction fuel using Nat.strong_induction_on with
  | _ fuel ih =>
    intro l h hrl
    obtain ⟨_, fuel', l', hlt, hrec⟩ := ancLoop_elem_run fuel _ l h r hrl
    have hup : ancestorsLoopF F fuel r.parent_activity_id = some l' :=
      ancLoop_mono (le_of_lt hlt) hrec
    rw [h] at hup
    injection hup with hup
    exact ih fuel' hlt l' hrec (hup ▸ hrl)

theorem anc_not_self {F : List Activity} {fuel : Nat} {x : String} {l : List Activity}
    (h : get_activity_ancestorsF F fuel x = some l) : ∀ r ∈ l, r.id ≠ x := by
  intro r hr hrx
  cases hf : findById F x with
  | none =>
    rw [ancestorsF_missing hf] at h
    injection h with h
    subst h
    cases hr
  | some a =>
    rw [ancestorsF_found hf] at h
    obtain ⟨hfr, _, _, _, _⟩ := ancLoop_elem_run fuel _ l h r hr
    rw [hrx, hf] at hfr
    injection hfr with hfr
    subst hfr
    exact ancLoop_irrefl a fuel l h hr

/-- Every record emitted by the tree/descendant recursion either has
`parent_activity_id = p` or points at the id of some record of `F`. -/
theorem reaches_parent_shape {F : List Activity} {p : Option String} {x : Activity}
    (h : ReachesFrom F p x) :
    x.parent_activity_id = p ∨ ∃ b ∈ F, x.parent_activity_id = some b.id := by
  induction h with
  | base _ hbp => exact Or.inl hbp
  | @step A X pp hbF _ _ ih =>
    rcases ih with h1 | h2
    · exact Or.inr ⟨A, hbF, h1⟩
    · exact Or.inr h2

/-- Structure of each emitted tree node. -/
theorem forestStep_elem {f : String → Option (List TreeNode)} :
    ∀ {l ts}, forestStep f l = some ts → ∀ t ∈ ts,
      ∃ a ∈ l, ∃ cs, f a.id = some cs ∧
        t = if cs.isEmpty then TreeNode.leaf a else TreeNode.node a cs := by
  intro l
  induction l with
  | nil =>
    intro ts h t ht
    rw [forestStep_nil] at h
    injection h with h
    subst h
    cases ht
  | cons a rest ih =>
    intro ts h t ht
    rw [forestStep_cons] at h
    cases hf : f a.id with
    | none => rw [hf] at h; cases h
    | some cs =>
      rw [hf] at h
      cases hrr : forestStep f rest with
      | none => rw [hrr] at h; cases h
      | some ts' =>
        rw [hrr] at h
        injection h with h
        subst h
        rcases List.mem_cons.mp ht with rfl | ht'
        · exact ⟨a, List.mem_cons_self a rest, cs, hf, rfl⟩
        · obtain ⟨b, hb, cs', hf', ht''⟩ := ih hrr t ht'
          exact ⟨b, List.mem_cons_of_mem a hb, cs', hf', ht''⟩

/-- On acyclic input, fuel `length` already suffices for the descendants of
any record of the snapshot. -/
theorem descF_term_mem {F : List Activity} (hacyc : Acyclic F) {a : Activity} (ha : a ∈ F) :
    get_activity_descendantsF F F.length a.id ≠ none := by
  obtain ⟨rank, hr⟩ := hacyc
  have hlt : F.countP (fun r => decide (rank a.id < rank r.id)) < F.length :=
    countP_lt_length ha (by simp)
  obtain ⟨n, hn⟩ : ∃ n, F.length = n + 1 := by
    cases F with
    | nil => cases ha
    | cons b rest => exact ⟨rest.length, by simp⟩
  rw [hn]
  exact descF_term_aux hr n a.id (by omega)

/-! ### A one-record parent cycle exhausts any amount of fuel -/

/-- The self-referential record of the cyclic example. -/
def selfLoop : Activity := ⟨"1", some "1", "self"⟩

/-- A snapshot whose single record is its own parent. -/
def cyclicSnap : List Activity := [selfLoop]

theorem cyclic_tree_none : ∀ fuel, get_activity_treeF cyclicSnap fuel (some "1") = none := by
  intro fuel
  induction fuel with
  | zero => rfl
  | succ n ih =>
    show forestStep (fun x => get_activity_treeF cyclicSnap n (some x)) [selfLoop] = none
    rw [forestStep_cons]
    rw [show get_activity_treeF cyclicSnap n (some selfLoop.id) = none from ih]

theorem cyclic_desc_none : ∀ fuel, get_activity_descendantsF cyclicSnap fuel "1" = none := by
  intro fuel
  induction fuel with
  | zero => rfl
  | succ n ih =>
    show descStep (fun y => get_activity_descendantsF cyclicSnap n y) [selfLoop] = none
    rw [descStep_cons]
    rw [show get_activity_descendantsF cyclicSnap n selfLoop.id = none from ih]

theorem cyclic_anc_none : ∀ fuel, get_activity_ancestorsF cyclicSnap fuel "1" = none := by
  have hloop : ∀ fuel, ancestorsLoopF cyclicSnap fuel (some "1") = none := by
    intro fuel
    induction fuel with
    | zero => rfl
    | succ n ih =>
      rw [ancLoop_found_eq n (by decide) (show findById cyclicSnap "1" = some selfLoop from rfl)]
      rw [show selfLoop.parent_activity_id = some "1" from rfl, ih]
      rfl
  intro fuel
  rw [ancestorsF_found (show findById cyclicSnap "1" = some selfLoop from rfl)]
  rw [show selfLoop.parent_activity_id = some "1" from rfl]
  exact hloop fuel

/-! ### Concrete snapshots from the specification scenarios -/

/-- Scenario A, record 1. -/
def rA1 : Activity := ⟨"1", none, "Main Task"⟩

/-- Scenario A, record 2. -/
def rA2 : Activity := ⟨"2", some "1", "Subtask 1"⟩

/-- Scenario A, record 3. -/
def rA3 : Activity := ⟨"3", some "2", "Sub-subtask"⟩

/-- Scenario A: a three-record chain 1 ← 2 ← 3. -/
def scenarioA : List Activity := [rA1, rA2, rA3]

/-- A topological order witnessing that scenario A is acyclic. -/
def rankA : String → Nat := fun s => if s = "1" then 0 else if s = "2" then 1 else 2

/-- Scenario B, the orphan record. -/
def rB5 : Activity := ⟨"5", some "missing", "Orphan"⟩

/-- Scenario B: a single record with a dangling parent reference. -/
def scenarioB : List Activity := [rB5]

/-- A record whose `parent_activity_id` is the falsy non-null empty string. -/
def rEmptyParent : Activity := ⟨"1", some "", "empty parent"⟩

/-- A snapshot whose only record has the empty string as parent. -/
def falsyRootSnap : List Activity := [rEmptyParent]

/-- A record referencing the empty string as parent. -/
def rToEmpty : Activity := ⟨"x", some "", "child of empty id"⟩

/-- A record whose id is the empty string. -/
def rEmptyId : Activity := ⟨"", none, "empty id"⟩

/-- A snapshot in which the empty string is the id of a real record. -/
def emptyIdSnap : List Activity := [rToEmpty, rEmptyId]

/-- A record whose parent reference points at an id absent from the snapshot. -/
def rGhostChild : Activity := ⟨"c", some "ghost", "dangling child"⟩

/-- A snapshot with a dangling parent reference to the absent id `ghost`. -/
def ghostSnap : List Activity := [rGhostChild]

/-! ### The claims -/

/-- C3: for every snapshot `F` and ids `a`, `d`, whenever the ancestor walk
of `d` returns a list `l`, `is_ancestor_of` returns exactly the decision of
`a` being among the ids of `l`; and the relation is never reflexive — if
`is_ancestor_of F a a` returns a boolean at all, that boolean is `false`,
even when `a` could only match itself through a cycle of the parent
relation. -/
theorem C3_is_ancestor_iff (F : List Activity) (a d : String) :
    (∀ fuel l, get_activity_ancestorsF F fuel d = some l →
      is_ancestor_ofF F fuel a d = some (decide (∃ r ∈ l, r.id = a))) ∧
    (∀ fuel b, is_ancestor_ofF F fuel a a = some b → b = false) := by
  constructor
  · intro fuel l h
    unfold is_ancestor_ofF
    rw [h]
    simp only [Option.map_some']
    congr 1
    rw [Bool.eq_iff_iff]
    simp [List.any_eq_true]
  · intro fuel b h
    unfold is_ancestor_ofF at h
    cases hanc : get_activity_ancestorsF F fuel a with
    | none => rw [hanc] at h; cases h
    | some l =>
      rw [hanc] at h
      simp only [Option.map_some'] at h
      injection h with h
      subst h
      have hnone := anc_not_self hanc
      rw [List.any_eq_false]
      intro r hr
      simpa using hnone r hr

/-- Witness for C3 at scenario A: the predicate agrees with membership in
the returned ancestor chain, and the reflexive query returns `false`. -/
theorem C3_is_ancestor_iff_witness :
    is_ancestor_ofF scenarioA 3 "1" "3" = some (decide (∃ r ∈ [rA2, rA1], r.id = "1")) ∧
    false = false :=
  ⟨(C3_is_ancestor_iff scenarioA "1" "3").1 3 [rA2, rA1] (by decide),
    (C3_is_ancestor_iff scenarioA "1" "1").2 3 false (by decide)⟩

/-- C5: `get_root_activities` returns exactly the records with falsy
(`None` or empty) `parent_activity_id`, in snapshot order; a record with a
present non-empty parent reference — even a dangling one — is excluded;
and on the orphan scenario B the roots are empty while the ancestor walk
returns zero ancestors and the depth is 0. -/
theorem C5_roots (F : List Activity) :
    (get_root_activities F).Sublist F ∧
    (∀ r, r ∈ get_root_activities F ↔
      r ∈ F ∧ (r.parent_activity_id = none ∨ r.parent_activity_id = some "")) ∧
    (∀ r ∈ F, ∀ pid, r.parent_activity_id = some pid → pid ≠ "" →
      r ∉ get_root_activities F) ∧
    get_root_activities scenarioB = [] ∧
    get_activity_ancestorsF scenarioB 1 "5" = some [] ∧
    calculate_activity_depthF scenarioB 1 "5" = some 0 := by
  refine ⟨List.filter_sublist F, ?_, ?_, rfl, rfl, rfl⟩
  · intro r
    rw [get_root_activities, List.mem_filter]
    constructor
    · rintro ⟨hm, hb⟩
      refine ⟨hm, ?_⟩
      cases hp : r.parent_activity_id with
      | none => exact Or.inl rfl
      | some s =>
        rw [hp] at hb
        unfold truthy at hb
        simp at hb
        subst hb
        exact Or.inr rfl
    · rintro ⟨hm, hp | hp⟩ <;> exact ⟨hm, by rw [hp]; rfl⟩
  · intro r hrF pid hpid hne hroot
    have h := (List.mem_filter.mp hroot).2
    rw [hpid] at h
    unfold truthy at h
    simp at h
    exact hne h

/-- Witness for C5: the orphan of scenario B is excluded from the roots. -/
theorem C5_roots_witness : rB5 ∉ get_root_activities scenarioB :=
  (C5_roots scenarioB).2.2.1 rB5 (by decide) "missing" (by decide) (by decide)

/-- C6: whenever the ancestor walk of `x` returns a list, the depth of `x`
is that list's length; and every record returned by `get_root_activities`
has depth 0 (ids unique per the data model). -/
theorem C6_depth (F : List Activity) (x : String) :
    (∀ fuel l, get_activity_ancestorsF F fuel x = some l →
      calculate_activity_depthF F fuel x = some l.length) ∧
    (NodupIds F → ∀ r ∈ get_root_activities F, ∀ fuel,
      calculate_activity_depthF F (fuel + 1) r.id = some 0) := by
  constructor
  · intro fuel l h
    unfold calculate_activity_depthF
    rw [h]
    rfl
  · intro hn r hr fuel
    have hmem := List.mem_filter.mp hr
    have hfalsy : truthy r.parent_activity_id = false := by simpa using hmem.2
    have hf : findById F r.id = some r := findById_self hn hmem.1
    unfold calculate_activity_depthF
    rw [ancestorsF_found hf]
    cases hpar : r.parent_activity_id with
    | none => rw [ancLoop_none_eq]; rfl
    | some s =>
      have hs : s = "" := by
        rw [hpar] at hfalsy
        unfold truthy at hfalsy
        simpa using hfalsy
      subst hs
      rw [ancLoop_empty_eq]
      rfl

/-- Witness for C6 at scenario A: depth of record 3 equals the length of
its ancestor chain, and the root record 1 has depth 0. -/
theorem C6_depth_witness :
    calculate_activity_depthF scenarioA 3 "3" = some 2 ∧
    calculate_activity_depthF scenarioA 3 "1" = some 0 := by
  constructor
  · have h := (C6_depth scenarioA "3").1 3 [rA2, rA1] (by decide)
    simpa using h
  · exact (C6_depth scenarioA "1").2 (by decide) rA1 (by decide) 2

/-- C7 as stated is false: a `CollectDescendants` query for an id that does
not exist in the snapshot can still return records, because a dangling
parent reference to that id counts as a child.  Here `ghost` is not the id
of any record of `ghostSnap`, yet the descendants of `ghost` are
non-empty. -/
theorem C7_counterexample :
    (∀ r ∈ ghostSnap, r.id ≠ "ghost") ∧
    get_activity_descendantsF ghostSnap 2 "ghost" = some [rGhostChild] := by
  exact ⟨by decide, rfl⟩

/-- C7 (amended): no operation raises on malformed input — for an id `x`
that is not the id of any record, the ancestor walk returns the empty
sequence, the depth is 0 and `is_ancestor_of _ a x` is `false` for every
`a`; and `CollectDescendants x` returns the empty sequence whenever no
record's `parent_activity_id` equals `x` (for a nonexistent `x` carrying
dangling references, the dangling children are still returned). -/
theorem C7_error_handling (F : List Activity) (x : String) :
    ((∀ r ∈ F, r.id ≠ x) →
      ∀ fuel, get_activity_ancestorsF F fuel x = some [] ∧
        calculate_activity_depthF F fuel x = some 0 ∧
        ∀ a, is_ancestor_ofF F fuel a x = some false) ∧
    ((∀ r ∈ F, r.parent_activity_id ≠ some x) →
      ∀ fuel, get_activity_descendantsF F (fuel + 1) x = some []) := by
  constructor
  · intro hmiss fuel
    have hf : findById F x = none := findById_none.mpr hmiss
    refine ⟨ancestorsF_missing hf fuel, ?_, ?_⟩
    · unfold calculate_activity_depthF
      rw [ancestorsF_missing hf]
      rfl
    · intro a
      unfold is_ancestor_ofF
      rw [ancestorsF_missing hf]
      rfl
  · intro hnochild fuel
    rw [descF_succ]
    have hfilter : F.filter (fun a => a.parent_activity_id == some x) = [] := by
      rw [List.filter_eq_nil_iff]
      intro a ha
      simpa using hnochild a ha
    rw [hfilter, descStep_nil]

/-- Witness for C7 (amended): a missing id yields empty ancestors on
scenario B, and a childless id yields empty descendants. -/
theorem C7_error_handling_witness :
    get_activity_ancestorsF scenarioB 1 "zzz" = some [] ∧
    get_activity_descendantsF scenarioB 1 "5" = some [] :=
  ⟨((C7_error_handling scenarioB "zzz").1 (by decide) 1).1,
    (C7_error_handling scenarioB "5").2 (by decide) 0⟩

/-- C4 as stated is false: the walk also halts on a present empty-string
`parent_id` that does resolve to a record.  In `emptyIdSnap` the ids are
unique, `x` is present with `parent_activity_id = some ""`, the empty
string resolves to the record `rEmptyId`, and yet the walk halts with zero
ancestors (the `while parent_id:` guard treats `""` as falsy). -/
theorem C4_counterexample :
    NodupIds emptyIdSnap ∧
    rToEmpty ∈ emptyIdSnap ∧
    rToEmpty.parent_activity_id = some "" ∧
    findById emptyIdSnap "" = some rEmptyId ∧
    get_activity_ancestorsF emptyIdSnap 5 "x" = some [] := by
  exact ⟨by decide, by decide, rfl, rfl, rfl⟩

/-- C4 (amended): for every snapshot with unique ids and id `x` resolving
to record `a`, the ancestor walk returns `some []` (for every positive
fuel) exactly when `a`'s parent is null/absent, the falsy empty string, or
a dangling reference; when the parent is truthy and resolves to `P`, the
walk appends `P` first and continues from `P` (immediate parent first,
root last), all silently and without error; and on the scenario A chain
the ancestors of `"3"` are the records `2`, `1` in that order. -/
theorem C4_ancestors_walk (F : List Activity) (x : String) (a : Activity)
    (hn : NodupIds F) (hf : findById F x = some a) :
    ((a.parent_activity_id = none ∨ a.parent_activity_id = some "" ∨
        (∃ pid, a.parent_activity_id = some pid ∧ findById F pid = none)) ↔
      (∀ fuel, get_activity_ancestorsF F (fuel + 1) x = some [])) ∧
    (∀ pid P, a.parent_activity_id = some pid → pid ≠ "" → findById F pid = some P →
      ∀ fuel, get_activity_ancestorsF F (fuel + 1) x =
        (get_activity_ancestorsF F fuel P.id).map fun l => P :: l) ∧
    get_activity_ancestorsF scenarioA 3 "3" = some [rA2, rA1] := by
  refine ⟨⟨?_, ?_⟩, ?_, rfl⟩
  · intro hcase fuel
    rw [ancestorsF_found hf]
    rcases hcase with hnone | hempty | ⟨pid, hpid, hdangle⟩
    · rw [hnone, ancLoop_none_eq]
    · rw [hempty, ancLoop_empty_eq]
    · by_cases hpe : pid = ""
      · rw [hpid, hpe, ancLoop_empty_eq]
      · rw [hpid, ancLoop_dangling_eq fuel hpe hdangle]
  · intro hall
    cases hpar : a.parent_activity_id with
    | none => exact Or.inl rfl
    | some pid =>
      by_cases hpe : pid = ""
      · exact Or.inr (Or.inl (by rw [hpe]))
      · cases hfp : findById F pid with
        | none => exact Or.inr (Or.inr ⟨pid, rfl, hfp⟩)
        | some P =>
          exfalso
          have h0 := hall 0
          rw [ancestorsF_found hf, hpar, ancLoop_found_eq 0 hpe hfp] at h0
          simp [ancestorsLoopF] at h0
  · intro pid P hpid hne hfp fuel
    rw [ancestorsF_found hf, hpid, ancLoop_found_eq fuel hne hfp]
    have hPmem : P ∈ F := findById_some_mem hfp
    rw [ancestorsF_found (findById_self hn hPmem)]

/-- Witness for C4 (amended) at scenario A: the walk from record 2 appends
its resolved parent 1 and continues from 1. -/
theorem C4_ancestors_walk_witness :
    get_activity_ancestorsF scenarioA 2 "2" =
      (get_activity_ancestorsF scenarioA 1 "1").map fun l => rA1 :: l :=
  (C4_ancestors_walk scenarioA "2" rA2 (by decide) rfl).2.1 "1" rA1 rfl (by decide) rfl 1

/-- C8: whenever `get_activity_tree` returns at parent value `p`, the
emitted nodes carry (as shallow copies) exactly the records of `F` whose
`parent_activity_id` equals `p`, in snapshot order; a node carries a
`children` field only when that field is non-empty (omitted, never
present-as-empty); and the field is present if and only if at least one
record of `F` references the node's id as parent. -/
theorem C8_tree_shape (F : List Activity) (p : Option String) (fuel : Nat)
    (ts : List TreeNode) (h : get_activity_treeF F (fuel + 1) p = some ts) :
    ts.map TreeNode.act = F.filter (fun a => a.parent_activity_id == p) ∧
    (∀ t ∈ ts, t.hasChildrenField = true → t.children ≠ []) ∧
    (∀ t ∈ ts, (t.hasChildrenField = true ↔
      ∃ r ∈ F, r.parent_activity_id = some t.act.id)) := by
  rw [treeF_succ] at h
  refine ⟨forestStep_map_act h, ?_, ?_⟩
  · intro t ht hfield
    obtain ⟨a, _, cs, hfa, hteq⟩ := forestStep_elem h t ht
    rcases eq_or_ne cs [] with rfl | hne
    · rw [mk_eq_leaf] at hteq
      subst hteq
      simp [TreeNode.hasChildrenField] at hfield
    · rw [mk_eq_node a hne] at hteq
      subst hteq
      simpa [TreeNode.children] using hne
  · intro t ht
    obtain ⟨a, _, cs, hfa, hteq⟩ := forestStep_elem h t ht
    obtain ⟨m, rfl⟩ : ∃ m, fuel = m + 1 := by
      cases fuel with
      | zero => simp [get_activity_treeF] at hfa
      | succ m => exact ⟨m, rfl⟩
    rw [treeF_succ] at hfa
    have hmap : cs.map TreeNode.act =
        F.filter (fun r => r.parent_activity_id == some a.id) := forestStep_map_act hfa
    rcases eq_or_ne cs [] with rfl | hne
    · rw [mk_eq_leaf] at hteq
      subst hteq
      simp only [TreeNode.hasChildrenField, TreeNode.act]
      constructor
      · intro hfalse; simp at hfalse
      · rintro ⟨r, hrF, hrpar⟩
        have hmem : r ∈ F.filter (fun q => q.parent_activity_id == some a.id) :=
          List.mem_filter.mpr ⟨hrF, by simp [hrpar]⟩
        rw [← hmap] at hmem
        simp at hmem
    · rw [mk_eq_node a hne] at hteq
      subst hteq
      simp only [TreeNode.hasChildrenField, TreeNode.act]
      constructor
      · intro _
        obtain ⟨r, hr⟩ : ∃ r, r ∈ F.filter (fun q => q.parent_activity_id == some a.id) := by
          rw [← hmap]
          cases cs with
          | nil => exact absurd rfl hne
          | cons c cst => exact ⟨c.act, by simp⟩
        have hm := List.mem_filter.mp hr
        exact ⟨r, hm.1, by simpa using hm.2⟩
      · intro _; trivial

/-- Witness for C8 at scenario A: the top level of the tree holds exactly
the root record, in snapshot order. -/
theorem C8_tree_shape_witness :
    [TreeNode.node rA1 [TreeNode.node rA2 [TreeNode.leaf rA3]]].map TreeNode.act =
      scenarioA.filter (fun a => a.parent_activity_id == none) :=
  (C8_tree_shape scenarioA none 3
    [TreeNode.node rA1 [TreeNode.node rA2 [TreeNode.leaf rA3]]] rfl).1

/-- C9: on every acyclic snapshot all the fuel-indexed operations return a
value at fuel `length + 1` (tree building for every parent value,
descendants, ancestors, depth and the ancestry predicate for every id;
`get_root_activities` is a single filter pass and total by construction),
while on the cyclic one-record snapshot the recursive operations and the
ancestor walk exhaust every amount of fuel — i.e. the Python code does not
terminate there. -/
theorem C9_termination :
    (∀ F : List Activity, Acyclic F →
      (∀ p, get_activity_treeF F (canonFuel F) p ≠ none) ∧
      (∀ x, get_activity_descendantsF F (canonFuel F) x ≠ none) ∧
      (∀ x, get_activity_ancestorsF F (canonFuel F) x ≠ none) ∧
      (∀ x, calculate_activity_depthF F (canonFuel F) x ≠ none) ∧
      (∀ a d, is_ancestor_ofF F (canonFuel F) a d ≠ none)) ∧
    (∀ fuel, get_activity_treeF cyclicSnap fuel (some "1") = none ∧
      get_activity_descendantsF cyclicSnap fuel "1" = none ∧
      get_activity_ancestorsF cyclicSnap fuel "1" = none) := by
  constructor
  · intro F hacyc
    refine ⟨treeF_term hacyc, descF_term hacyc, ancestorsF_term hacyc, ?_, ?_⟩
    · intro x
      unfold calculate_activity_depthF
      cases hanc : get_activity_ancestorsF F (canonFuel F) x with
      | none => exact absurd hanc (ancestorsF_term hacyc x)
      | some l => simp
    · intro a d
      unfold is_ancestor_ofF
      cases hanc : get_activity_ancestorsF F (canonFuel F) d with
      | none => exact absurd hanc (ancestorsF_term hacyc d)
      | some l => simp
  · intro fuel
    exact ⟨cyclic_tree_none fuel, cyclic_desc_none fuel, cyclic_anc_none fuel⟩

/-- Witness for C9: on the acyclic scenario A the ancestor walk returns a
value at canonical fuel. -/
theorem C9_termination_witness :
    get_activity_ancestorsF scenarioA (canonFuel scenarioA) "3" ≠ none :=
  ((C9_termination.1 scenarioA ⟨rankA, by decide⟩).2.2.1) "3"

/-- C10 as stated is false: a record with a falsy non-null parent can
appear in the output of `get_activity_tree _ none` — namely as a child of
a record whose id is the empty string.  In `emptyIdSnap` (unique ids) the
record `rToEmpty` has `parent_activity_id = some ""` (falsy, non-null),
yet it occurs nested in the tree under the record with id `""`. -/
theorem C10_counterexample :
    NodupIds emptyIdSnap ∧
    rToEmpty ∈ emptyIdSnap ∧
    rToEmpty.parent_activity_id = some "" ∧
    truthy rToEmpty.parent_activity_id = false ∧
    get_activity_treeF emptyIdSnap 3 none =
      some [TreeNode.node rEmptyId [TreeNode.leaf rToEmpty]] ∧
    rToEmpty ∈ flattenForest [TreeNode.node rEmptyId [TreeNode.leaf rToEmpty]] := by
  exact ⟨by decide, by decide, rfl, rfl, by rfl, by decide⟩

/-- C10 (amended): in a snapshot with unique ids, a record `r` whose
`parent_activity_id` is the falsy non-null empty string is returned by
`get_root_activities` and treated as a root by the ancestor walk and the
depth computation (zero ancestors, depth 0), but `get_activity_tree`
with parent `none` never emits it at the top level — and, provided no
record of the snapshot has the empty string as id, nowhere in its output —
because the tree membership test compares `parent_activity_id` with `None`
by equality while the other operations test truthiness. -/
theorem C10_falsy_parent (F : List Activity) (r : Activity) (hn : NodupIds F)
    (hr : r ∈ F) (hpar : r.parent_activity_id = some "") :
    r ∈ get_root_activities F ∧
    (∀ fuel, get_activity_ancestorsF F (fuel + 1) r.id = some [] ∧
      calculate_activity_depthF F (fuel + 1) r.id = some 0) ∧
    (∀ fuel ts, get_activity_treeF F fuel none = some ts →
      (∀ t ∈ ts, t.act ≠ r) ∧
      ((∀ b ∈ F, b.id ≠ "") → r ∉ flattenForest ts)) := by
  refine ⟨List.mem_filter.mpr ⟨hr, by rw [hpar]; rfl⟩, ?_, ?_⟩
  · intro fuel
    have hf := findById_self hn hr
    constructor
    · rw [ancestorsF_found hf, hpar, ancLoop_empty_eq]
    · unfold calculate_activity_depthF
      rw [ancestorsF_found hf, hpar, ancLoop_empty_eq]
      rfl
  · intro fuel ts h
    constructor
    · intro t ht heq
      obtain ⟨m, rfl⟩ : ∃ m, fuel = m + 1 := by
        cases fuel with
        | zero => simp [get_activity_treeF] at h
        | succ m => exact ⟨m, rfl⟩
      rw [treeF_succ] at h
      have hmap := forestStep_map_act h
      have hactmem : t.act ∈ F.filter (fun a => a.parent_activity_id == (none : Option String)) := by
        rw [← hmap]
        exact List.mem_map_of_mem TreeNode.act ht
      have hpnone : t.act.parent_activity_id = none := by
        simpa using (List.mem_filter.mp hactmem).2
      rw [heq, hpar] at hpnone
      cases hpnone
    · intro hnoempty hmem
      have hreach := treeF_sound fuel none ts h r hmem
      rcases reaches_parent_shape hreach with h1 | ⟨b, hbF, h2⟩
      · rw [hpar] at h1; cases h1
      · rw [hpar] at h2
        injection h2 with h2
        exact hnoempty b hbF h2.symm

/-- Witness for C10 (amended): the single empty-string-parent record is a
root for `get_root_activities` yet absent from the (empty) tree output. -/
theorem C10_falsy_parent_witness :
    rEmptyParent ∈ get_root_activities falsyRootSnap ∧
    rEmptyParent ∉ flattenForest ([] : List TreeNode) := by
  have h := C10_falsy_parent falsyRootSnap rEmptyParent (by decide) (by decide) rfl
  exact ⟨h.1, (h.2.2 2 [] rfl).2 (by decide)⟩

/-- C1 as stated is false: the claim counts any record with a falsy
`parent_id` (including the empty string) as a root, but
`get_activity_tree _ none` selects only records whose parent is exactly
`None`.  The acyclic unique-id snapshot `falsyRootSnap` consists of one
record with `parent_activity_id = some ""`: it is a "root" in the claim's
null/absent/falsy sense and reachable from itself, yet the tree produced
from `none` is empty, so the flattening misses it. -/
theorem C1_counterexample :
    Acyclic falsyRootSnap ∧ NodupIds falsyRootSnap ∧
    rEmptyParent ∈ falsyRootSnap ∧
    truthy rEmptyParent.parent_activity_id = false ∧
    get_activity_tree falsyRootSnap none = [] :=
  ⟨⟨fun s => if s = "1" then 1 else 0, by decide⟩, by decide, by decide, rfl, rfl⟩

/-- C1 (amended): for every acyclic snapshot with unique ids, flattening
`get_activity_tree F none` by pre-order traversal reproduces exactly the
records of `F` reachable from some root — a record whose
`parent_activity_id` is null/absent (exactly `None`, the top-level
selection of the tree builder) — each exactly once. -/
theorem C1_roundtrip (F : List Activity) (hn : NodupIds F) (hacyc : Acyclic F) :
    ∃ ts, get_activity_treeF F (canonFuel F) none = some ts ∧
      get_activity_tree F none = ts ∧
      (flattenForest ts).Nodup ∧
      (∀ x, x ∈ flattenForest ts ↔ ReachesFrom F none x) := by
  obtain ⟨rank, hrk⟩ := hacyc
  cases h : get_activity_treeF F (canonFuel F) none with
  | none => exact absurd h (treeF_term ⟨rank, hrk⟩ none)
  | some ts =>
    refine ⟨ts, rfl, by simp [get_activity_tree, h], treeF_nodup hrk hn _ none ts h,
      fun x => ⟨fun hx => treeF_sound _ none ts h x hx, fun hx => treeF_complete hx _ ts h⟩⟩

/-- Witness for C1 (amended) at scenario A: the deepest record of the
chain appears in the flattened tree. -/
theorem C1_roundtrip_witness : rA3 ∈ flattenForest (get_activity_tree scenarioA none) := by
  obtain ⟨ts, h1, h2, h3, h4⟩ := C1_roundtrip scenarioA (by decide) ⟨rankA, by decide⟩
  rw [h2]
  exact (h4 rA3).mpr
    (@ReachesFrom.step scenarioA rA1 rA3 none (by decide) rfl
      (@ReachesFrom.step scenarioA rA2 rA3 (some "1") (by decide) rfl
        (@ReachesFrom.base scenarioA rA3 (some "2") (by decide) rfl)))

/-- C2: for every acyclic snapshot with unique ids and every id `pid`,
`get_activity_descendants` returns, without duplicates, exactly the
records whose parent chain reaches `pid` (in particular each record whose
`parent_activity_id` equals `pid` appears exactly once), and the output is
the pre-order concatenation: for each direct child `c` (in snapshot
order), `c` itself followed by the descendants of `c`, before the next
sibling's block. -/
theorem C2_descendants (F : List Activity) (pid : String) (hn : NodupIds F)
    (hacyc : Acyclic F) :
    ∃ l, get_activity_descendantsF F (canonFuel F) pid = some l ∧
      get_activity_descendants F pid = l ∧
      l.Nodup ∧
      (∀ y, y ∈ l ↔ ReachesFrom F (some pid) y) ∧
      l = ((F.filter fun a => a.parent_activity_id == some pid).map
        fun c => c :: get_activity_descendants F c.id).flatten := by
  obtain ⟨rank, hrk⟩ := hacyc
  cases h : get_activity_descendantsF F (canonFuel F) pid with
  | none => exact absurd h (descF_term ⟨rank, hrk⟩ pid)
  | some l =>
    refine ⟨l, rfl, by simp [get_activity_descendants, h], descF_nodup hrk hn _ pid l h,
      fun y => ⟨fun hy => descF_sound _ pid l h y hy, fun hy => descF_complete hy _ l h⟩, ?_⟩
    have h' : get_activity_descendantsF F (F.length + 1) pid = some l := h
    rw [descF_succ] at h'
    rw [descStep_join h']
    congr 1
    apply List.map_congr_left
    intro a ha
    have haF := (List.mem_filter.mp ha).1
    cases hda : get_activity_descendantsF F F.length a.id with
    | none => exact absurd hda (descF_term_mem ⟨rank, hrk⟩ haF)
    | some da =>
      have hup : get_activity_descendantsF F (F.length + 1) a.id = some da :=
        descF_mono_succ _ _ _ hda
      simp [get_activity_descendants, canonFuel, hda, hup]

/-- Witness for C2 at scenario A: the grandchild record 3 appears among
the descendants of record 1. -/
theorem C2_descendants_witness : rA3 ∈ get_activity_descendants scenarioA "1" := by
  obtain ⟨l, h1, h2, h3, h4, h5⟩ := C2_descendants scenarioA "1" (by decide) ⟨rankA, by decide⟩
  rw [h2]
  exact (h4 rA3).mpr
    (@ReachesFrom.step scenarioA rA2 rA3 (some "1") (by decide) rfl
      (@ReachesFrom.base scenarioA rA3 (some "2") (by decide) rfl))

end ActivityHierarchy
